import Mathlib

/-!
Verification of the siad SiaFile persistence core: the update-record codec,
the transaction apply engine, the WAL recovery loop, the metadata and
public-key-table codecs, the metadata field-equality check, and the
account-balance RPC payment check.

Bytes are modelled as natural numbers, byte strings as `List Nat`.  Multi-byte
integer fields are encoded little-endian with an explicit width, matching the
fixed-width binary layout of the on-disk format.
-/

namespace Siad

/-- Little-endian encoding of `n` into `k` bytes. -/
def encLE : Nat → Nat → List Nat
  | 0, _ => []
  | k + 1, n => n % 256 :: encLE k (n / 256)

/-- Little-endian decoding of a byte list into a natural number. -/
def decLE : List Nat → Nat
  | [] => 0
  | b :: r => b + 256 * decLE r

/-- Two's-complement encoding of a signed 64-bit offset. -/
def encInt64 (i : Int) : List Nat := encLE 8 ((i % 2 ^ 64)).toNat

/-- Two's-complement decoding of a signed 64-bit offset. -/
def decInt64 (b : List Nat) : Int :=
  let n := decLE b
  if n < 2 ^ 63 then (n : Int) else (n : Int) - 2 ^ 64

/-! ### The on-disk file and the single-record write

Modelled from the spec: the Transaction Apply Engine's per-record action
(§4.4) — "writing `payload` at `offset` (zero-extending the file if offset is
beyond current end-of-file — no gap-filling with undefined bytes; gaps read
back as zero)".  The Go implementation of `applyUpdates` is not part of the
source sample; only its tests are.
-/

/-- Zero-extend a file so that it is at least `i` bytes long. -/
def pad (f : List Nat) (i : Nat) : List Nat :=
  f ++ List.replicate (i - f.length) 0

/-- Modelled from the spec: the per-record write of the Transaction Apply
Engine (§4.4), whose Go implementation is absent from the source sample —
write `p` into file `f` at byte offset `i`, zero-extending first if `i` is
beyond the end of file, with gaps reading back as zero. -/
def writeAt (f : List Nat) (i : Nat) (p : List Nat) : List Nat :=
  (pad f i).take i ++ p ++ (pad f i).drop (i + p.length)

/-! ### Sequences of record writes

Modelled from the spec (§3, §4.4): an update record is pure data — a byte
offset and a payload — applied "in the given order" by the apply engine.
(The target path is handled by the update-record codec below; the apply
engine of a single owning instance writes to its one backing file.)
-/

/-- A decoded update record: a byte offset and a payload. -/
structure Rec where
  off : Nat
  payload : List Nat
deriving DecidableEq

/-- The extent of a record: one past the last byte it writes. -/
def Rec.ext (r : Rec) : Nat := r.off + r.payload.length

/-- Record `r` writes byte position `j`. -/
def covers (r : Rec) (j : Nat) : Prop := r.off ≤ j ∧ j < r.ext

instance (r : Rec) (j : Nat) : Decidable (covers r j) := by
  unfold covers
  infer_instance

/-- Apply a sequence of records to a file, in order. -/
def applyList (rs : List Rec) (f : List Nat) : List Nat :=
  rs.foldl (fun a r => writeAt a r.off r.payload) f

/-- The byte that the last record of `rs` covering position `j` writes
there, if any record covers `j`; folded with accumulator `o`. -/
def lastWriteFrom (j : Nat) (rs : List Rec) (o : Option Nat) : Option Nat :=
  rs.foldl (fun a r => if covers r j then some (r.payload.getD (j - r.off) 0) else a) o

/-- The byte that the last record of `rs` covering position `j` writes. -/
def lastWrite (j : Nat) (rs : List Rec) : Option Nat := lastWriteFrom j rs none

/-- The length of the file after applying `rs` to a file of length `n`. -/
def maxLen (rs : List Rec) (n : Nat) : Nat :=
  rs.foldl (fun a r => max a r.ext) n

/-- `firstSome a b` is `a` when `a` is `some`, else `b`. -/
def firstSome (a b : Option Nat) : Option Nat :=
  match a with
  | some v => some v
  | none => b

/-! ### Update Record Codec

Modelled from the spec (§4.3, §6): the update record wire format is an opaque
byte blob containing a length-prefixed path string, an 8-byte signed offset,
and a length-prefixed payload; `createUpdate` captures the owning file's
resolved path, the offset and a copy of the payload, and `readUpdate` is the
exact inverse, rejecting malformed records.  The Go `createUpdate` /
`readUpdate` bodies are not part of the source sample; only their test is.
-/

/-- Read `k` raw bytes from the front of a buffer. -/
def readBytes (k : Nat) (b : List Nat) : Option (List Nat × List Nat) :=
  if k ≤ b.length then some (b.take k, b.drop k) else none

/-- Read an 8-byte little-endian unsigned integer. -/
def readU64 (b : List Nat) : Option (Nat × List Nat) :=
  (readBytes 8 b).map fun p => (decLE p.1, p.2)

/-- Read an 8-byte little-endian signed integer. -/
def readI64 (b : List Nat) : Option (Int × List Nat) :=
  (readBytes 8 b).map fun p => (decInt64 p.1, p.2)

/-- Modelled from the spec: the update-record wire format of `createUpdate`
(§4.3, §6), whose Go implementation is absent from the source sample —
length-prefixed path, 8-byte signed offset, length-prefixed payload. -/
def mkUpdate (path : List Nat) (off : Int) (payload : List Nat) : List Nat :=
  encLE 8 path.length ++ path ++ encInt64 off ++ encLE 8 payload.length ++ payload

/-- Modelled from the spec: `readUpdate` (§4.3), whose Go implementation is
absent from the source sample — decode an update record blob back into
`(path, offset, payload)`; malformed blobs yield `none`. -/
def readUpdate (u : List Nat) : Option (List Nat × Int × List Nat) :=
  (readU64 u).bind fun pl =>
  (readBytes pl.1 pl.2).bind fun pa =>
  (readI64 pa.2).bind fun offr =>
  (readU64 offr.2).bind fun dl =>
  if dl.2.length = dl.1 then some (pa.1, offr.1, dl.2) else none

/-! ### Transaction Apply Engine and I/O Dependency Seam

Modelled from the spec (§4.4, §4.6, §7): `apply(ioDependency, records...)`
applies records in order; each record is decoded by the update-record codec
(a record that cannot be decoded or resolved is a fatal `MalformedUpdate`),
then written through the I/O dependency, which for verification can be told
to fail a given write call with a `DiskFault`.  The dependency is modelled as
a fault schedule `Nat → Bool`: `dep n = true` means the `n`-th write call
through the seam fails with a disk fault.  The Go implementations
(`applyUpdates`, `ApplyUpdates`, `SiaFile.applyUpdates`,
`createAndApplyTransaction`) are not part of the source sample; only their
tests are.
-/

/-- Error taxonomy of the apply engine: a retryable disk fault, or a fatal
structurally-malformed update. -/
inductive ApplyErr where
  | diskFault
  | malformedUpdate
deriving DecidableEq

/-- The state behind the I/O dependency seam: the backing file's bytes and
the number of write calls made so far (which the fault schedule indexes). -/
structure Disk where
  file : List Nat
  writes : Nat
deriving DecidableEq

/-- Modelled from the spec: the canonical apply function of the Transaction
Apply Engine (§4.4), whose Go implementation `applyUpdates` is absent from
the source sample — decode each update record, then write its payload at its
offset through the I/O dependency, in order, stopping at the first error. -/
def applyUpdates (dep : Nat → Bool) (d : Disk) (us : List (List Nat)) :
    Disk × Option ApplyErr :=
  match us with
  | [] => (d, none)
  | u :: rest =>
    match readUpdate u with
    | none => (d, some .malformedUpdate)
    | some (_, off, payload) =>
      if off < 0 then (d, some .malformedUpdate)
      else if dep d.writes then ({ d with writes := d.writes + 1 }, some .diskFault)
      else applyUpdates dep ⟨writeAt d.file off.toNat payload, d.writes + 1⟩ rest

/-- The production dependency: every write call succeeds. -/
def prodDep : Nat → Bool := fun _ => false

/-- The owning instance: resolved backing-file path, configured I/O
dependency, disk state, and the list of logged-but-incomplete WAL
transactions. -/
structure SiaFile where
  siaFilePath : List Nat
  deps : Nat → Bool
  disk : Disk
  wal : List (List (List Nat))

/-- Modelled from the spec: `SiaFile.createUpdate` (§4.3), absent from the
source sample — create an update record targeting the owning file's resolved
path. -/
def SiaFile.createUpdate (sf : SiaFile) (off : Int) (payload : List Nat) :
    List Nat :=
  mkUpdate sf.siaFilePath off payload

/-- Modelled from the spec: the stateless free-function entry point with an
explicit dependency (§4.4; Go `ApplyUpdates`, absent from the source
sample). -/
def ApplyUpdates (dep : Nat → Bool) (d : Disk) (us : List (List Nat)) :
    Disk × Option ApplyErr :=
  applyUpdates dep d us

/-- Modelled from the spec: the instance-method entry point using the
owner's configured dependency (§4.4; Go `SiaFile.applyUpdates`, absent from
the source sample). -/
def SiaFile.applyUpdates (sf : SiaFile) (us : List (List Nat)) :
    SiaFile × Option ApplyErr :=
  match Siad.applyUpdates sf.deps sf.disk us with
  | (d, e) => ({ sf with disk := d }, e)

/-- Modelled from the spec: the convenience entry point that durably logs
the records as a new WAL transaction, applies them, and on success marks the
transaction complete (§4.4; Go `createAndApplyTransaction`, absent from the
source sample). -/
def SiaFile.createAndApplyTransaction (sf : SiaFile) (us : List (List Nat)) :
    SiaFile × Option ApplyErr :=
  match Siad.applyUpdates sf.deps sf.disk us with
  | (d, none) => ({ sf with disk := d, wal := sf.wal }, none)
  | (d, some e) => ({ sf with disk := d, wal := sf.wal ++ [us] }, some e)

/-- Decode an update blob into an applicable record. -/
def decRec (u : List Nat) : Option Rec :=
  (readUpdate u).bind fun t =>
    if t.2.1 < 0 then none else some ⟨t.2.1.toNat, t.2.2⟩

/-- An update blob is well formed when it decodes to a record. -/
def WfUpdate (u : List Nat) : Prop := (decRec u).isSome

instance (u : List Nat) : Decidable (WfUpdate u) := by
  unfold WfUpdate
  infer_instance

/-- The records denoted by a list of update blobs. -/
def decRecs (us : List (List Nat)) : List Rec := us.filterMap decRec

/-! ### Recovery Loader

Modelled from the spec (§4.5): on opening an existing file, the incomplete
WAL transactions are replayed through the Apply Engine in log order; each is
marked complete only after its apply succeeds; a `DiskFault` is propagated to
the caller without marking completion; a non-fault error fails loading
fatally.  The Go `loadSiaFile` body is not part of the source sample; only
the fault-injection test driving this loop is.
-/

/-- Modelled from the spec: the Recovery Loader's replay loop (§4.5), whose
Go implementation in `loadSiaFile` is absent from the source sample — replay
a list of incomplete WAL transactions in log order, returning the final disk
state, the number of transactions marked complete, and the first error (if
any). -/
def replayTransactions (dep : Nat → Bool) (d : Disk)
    (txns : List (List (List Nat))) : Disk × Nat × Option ApplyErr :=
  match txns with
  | [] => (d, 0, none)
  | t :: ts =>
    match applyUpdates dep d t with
    | (d1, none) =>
      match replayTransactions dep d1 ts with
      | (d2, k, e) => (d2, k + 1, e)
    | (d1, some e) => (d1, 0, some e)

/-! ### Fault-injection transition system

Modelled from the spec (§4.4, §4.5, §5, §7) and the fault-injection test:
an intended sequence `T` of WAL transactions (each an ordered list of
records) is logged and applied; a write call may fault at any point, leaving
a transaction logged but incomplete and the file with a partially applied
record fragment; recovery replays the incomplete transactions in log order;
dependency resets only change the fault schedule, which is modelled
nondeterministically (any write may fault), so a reset is a stutter step.
-/

/-- The records of transactions `c ≤ i < l` of the intended sequence. -/
def sliceRecs (T : List (List Rec)) (c l : Nat) : List Rec :=
  ((T.take l).drop c).flatten

/-- Observable WAL/file state: how many of the logged transactions are
marked complete, how many transactions have been durably logged, and the
exact sequence of record writes performed on the backing file so far.
The backing file's contents are `applyList hist []` (files start blank). -/
structure WState where
  completed : Nat
  logged : Nat
  hist : List Rec

/-- Modelled from the spec: the reachable states of the log/apply/recover
life cycle under injected faults (§4.4, §4.5, §7), whose Go implementation
is absent from the source sample — a fresh blank file; a dependency reset
(pure fault-schedule change); logging a new transaction and applying `k` of
its records before a fault (or all of them, with success meaning it was also
marked complete); a recovery step replaying the first incomplete
transaction, again stopping after `k` records on a fault. -/
inductive Reach (T : List (List Rec)) : WState → Prop where
  | init : Reach T ⟨0, 0, []⟩
  | reset {s : WState} : Reach T s → Reach T s
  | opStep {s : WState} (k : Nat) (success : Bool) :
      Reach T s → s.completed = s.logged → s.logged < T.length →
      k ≤ (T.getD s.logged []).length →
      (success = true → k = (T.getD s.logged []).length) →
      Reach T ⟨if success then s.completed + 1 else s.completed, s.logged + 1,
        s.hist ++ (T.getD s.logged []).take k⟩
  | recStep {s : WState} (k : Nat) (success : Bool) :
      Reach T s → s.completed < s.logged →
      k ≤ (T.getD s.completed []).length →
      (success = true → k = (T.getD s.completed []).length) →
      Reach T ⟨if success then s.completed + 1 else s.completed, s.logged,
        s.hist ++ (T.getD s.completed []).take k⟩

/-- The inductive invariant: counters are ordered and bounded; every record
ever written comes from the intended sequence; and replaying the incomplete
transactions from the current file state lands exactly on the state with the
first `logged` transactions fully applied (recoverability). -/
def Inv (T : List (List Rec)) (s : WState) : Prop :=
  s.completed ≤ s.logged ∧ s.logged ≤ T.length ∧
  (∀ r ∈ s.hist, r ∈ T.flatten) ∧
  applyList (sliceRecs T s.completed s.logged) (applyList s.hist []) =
    applyList (T.take s.logged).flatten []

/-! ### Metadata and its codec

The field set and comparison order follow `Metadata.AssertEqual` in the
source; the source additionally shows a `staticErasureCode` field
(erasure-coding configuration: piece count and minimum pieces, per the spec's
data model) that `AssertEqual` does not compare.  The marshal/unmarshal
bodies are modelled from the spec (§4.1): fixed-width fields in a stable
field order, length-prefixed strings, version checked first.  String and key
fields are byte lists; the two key blobs are fixed-size (32 bytes). -/
structure Metadata where
  StaticVersion : Nat
  StaticFileSize : Nat
  LocalPath : List Nat
  SiaPath : List Nat
  StaticMasterKey : List Nat
  StaticSharingKey : List Nat
  ModTime : Nat
  ChangeTime : Nat
  AccessTime : Nat
  CreateTime : Nat
  Mode : Nat
  UID : Nat
  Gid : Nat
  StaticChunkMetadataSize : Nat
  ChunkOffset : Nat
  PubKeyTableOffset : Nat
  staticErasureCode : Nat × Nat
deriving DecidableEq

/-- The current metadata format version. -/
def metadataVersion : Nat := 1

/-- The field names `AssertEqual` can report as diverging. -/
inductive MetaField where
  | staticVersion
  | staticFileSize
  | localPath
  | siaPath
  | staticMasterKey
  | staticSharingKey
  | modTime
  | changeTime
  | accessTime
  | createTime
  | mode
  | uid
  | gid
  | staticChunkMetadataSize
  | chunkOffset
  | pubKeyTableOffset
deriving DecidableEq

/-- Field-by-field comparison of two metadata values, reporting the first
diverging field, in the source's comparison order (the error string of the
source is abstracted to the name of the reported field). -/
def Metadata.AssertEqual (md md2 : Metadata) : Option MetaField :=
  if md.StaticVersion ≠ md2.StaticVersion then some .staticVersion
  else if md.StaticFileSize ≠ md2.StaticFileSize then some .staticFileSize
  else if md.LocalPath ≠ md2.LocalPath then some .localPath
  else if md.SiaPath ≠ md2.SiaPath then some .siaPath
  else if md.StaticMasterKey ≠ md2.StaticMasterKey then some .staticMasterKey
  else if md.StaticSharingKey ≠ md2.StaticSharingKey then some .staticSharingKey
  else if md.ModTime ≠ md2.ModTime then some .modTime
  else if md.ChangeTime ≠ md2.ChangeTime then some .changeTime
  else if md.AccessTime ≠ md2.AccessTime then some .accessTime
  else if md.CreateTime ≠ md2.CreateTime then some .createTime
  else if md.Mode ≠ md2.Mode then some .mode
  else if md.UID ≠ md2.UID then some .uid
  else if md.Gid ≠ md2.Gid then some .gid
  else if md.StaticChunkMetadataSize ≠ md2.StaticChunkMetadataSize then
    some .staticChunkMetadataSize
  else if md.ChunkOffset ≠ md2.ChunkOffset then some .chunkOffset
  else if md.PubKeyTableOffset ≠ md2.PubKeyTableOffset then some .pubKeyTableOffset
  else none

/-- The field equality a reported `MetaField` stands for. -/
def fieldEq (md md2 : Metadata) : MetaField → Prop
  | .staticVersion => md.StaticVersion = md2.StaticVersion
  | .staticFileSize => md.StaticFileSize = md2.StaticFileSize
  | .localPath => md.LocalPath = md2.LocalPath
  | .siaPath => md.SiaPath = md2.SiaPath
  | .staticMasterKey => md.StaticMasterKey = md2.StaticMasterKey
  | .staticSharingKey => md.StaticSharingKey = md2.StaticSharingKey
  | .modTime => md.ModTime = md2.ModTime
  | .changeTime => md.ChangeTime = md2.ChangeTime
  | .accessTime => md.AccessTime = md2.AccessTime
  | .createTime => md.CreateTime = md2.CreateTime
  | .mode => md.Mode = md2.Mode
  | .uid => md.UID = md2.UID
  | .gid => md.Gid = md2.Gid
  | .staticChunkMetadataSize => md.StaticChunkMetadataSize = md2.StaticChunkMetadataSize
  | .chunkOffset => md.ChunkOffset = md2.ChunkOffset
  | .pubKeyTableOffset => md.PubKeyTableOffset = md2.PubKeyTableOffset

/-- Modelled from the spec: `marshalMetadata` (§4.1), whose Go
implementation is absent from the source sample — version first, then
fixed-width numeric fields in comparison order, length-prefixed paths,
fixed-size key blobs, and the erasure-coding configuration. -/
def marshalMetadata (m : Metadata) : List Nat :=
  encLE 8 m.StaticVersion ++ encLE 8 m.StaticFileSize ++
  encLE 8 m.LocalPath.length ++ m.LocalPath ++
  encLE 8 m.SiaPath.length ++ m.SiaPath ++
  m.StaticMasterKey ++ m.StaticSharingKey ++
  encLE 8 m.ModTime ++ encLE 8 m.ChangeTime ++
  encLE 8 m.AccessTime ++ encLE 8 m.CreateTime ++
  encLE 8 m.Mode ++ encLE 8 m.UID ++ encLE 8 m.Gid ++
  encLE 8 m.StaticChunkMetadataSize ++ encLE 8 m.ChunkOffset ++
  encLE 8 m.PubKeyTableOffset ++
  encLE 8 m.staticErasureCode.1 ++ encLE 8 m.staticErasureCode.2

/-- The leading variable-width portion of the metadata encoding: version,
file size, the two length-prefixed paths and the two fixed-size key blobs,
plus the not-yet-consumed remainder of the buffer. -/
structure MetaHead where
  version : Nat
  fileSize : Nat
  localPath : List Nat
  siaPath : List Nat
  masterKey : List Nat
  sharingKey : List Nat
  rest : List Nat

/-- Modelled from the spec: the head of `unmarshalMetadata` (§4.1), whose Go
implementation is absent from the source sample — the version is checked
first, and an unknown version fails before any other field is
interpreted. -/
def readMetaHead (b : List Nat) : Option MetaHead :=
  (readU64 b).bind fun p1 =>
  if p1.1 ≠ metadataVersion then none else
  (readU64 p1.2).bind fun p2 =>
  (readU64 p2.2).bind fun p3 =>
  (readBytes p3.1 p3.2).bind fun p4 =>
  (readU64 p4.2).bind fun p5 =>
  (readBytes p5.1 p5.2).bind fun p6 =>
  (readBytes 32 p6.2).bind fun p7 =>
  (readBytes 32 p7.2).bind fun p8 =>
  some ⟨p1.1, p2.1, p4.1, p6.1, p7.1, p8.1, p8.2⟩

/-- Read `n` consecutive 8-byte little-endian unsigned integers. -/
def readU64s : Nat → List Nat → Option (List Nat × List Nat)
  | 0, b => some ([], b)
  | n + 1, b =>
    (readU64 b).bind fun v =>
    (readU64s n v.2).bind fun vs =>
    some (v.1 :: vs.1, vs.2)

/-- Modelled from the spec: `unmarshalMetadata` (§4.1), whose Go
implementation is absent from the source sample — the leading portion
followed by the twelve remaining fixed-width numeric fields, in the stable
field order of `marshalMetadata`. -/
def unmarshalMetadata (b : List Nat) : Option Metadata :=
  (readMetaHead b).bind fun h =>
  (readU64s 12 h.rest).bind fun vs =>
  some ⟨h.version, h.fileSize, h.localPath, h.siaPath, h.masterKey,
    h.sharingKey, vs.1.getD 0 0, vs.1.getD 1 0, vs.1.getD 2 0, vs.1.getD 3 0,
    vs.1.getD 4 0, vs.1.getD 5 0, vs.1.getD 6 0, vs.1.getD 7 0, vs.1.getD 8 0,
    vs.1.getD 9 0, (vs.1.getD 10 0, vs.1.getD 11 0)⟩

/-- A metadata value the on-disk format can represent exactly: current
version, 64-bit numeric fields, 64-bit length-prefixed paths, 32-byte key
blobs. -/
def validMetadata (m : Metadata) : Prop :=
  m.StaticVersion = metadataVersion ∧ m.StaticFileSize < 2 ^ 64 ∧
  m.LocalPath.length < 2 ^ 64 ∧ m.SiaPath.length < 2 ^ 64 ∧
  m.StaticMasterKey.length = 32 ∧ m.StaticSharingKey.length = 32 ∧
  m.ModTime < 2 ^ 64 ∧ m.ChangeTime < 2 ^ 64 ∧
  m.AccessTime < 2 ^ 64 ∧ m.CreateTime < 2 ^ 64 ∧
  m.Mode < 2 ^ 64 ∧ m.UID < 2 ^ 64 ∧ m.Gid < 2 ^ 64 ∧
  m.StaticChunkMetadataSize < 2 ^ 64 ∧ m.ChunkOffset < 2 ^ 64 ∧
  m.PubKeyTableOffset < 2 ^ 64 ∧
  m.staticErasureCode.1 < 2 ^ 64 ∧ m.staticErasureCode.2 < 2 ^ 64

instance (m : Metadata) : Decidable (validMetadata m) := by
  unfold validMetadata
  infer_instance

/-! ### Public-Key Table Codec

Modelled from the spec (§4.2): entry count, then per entry a fixed-size
(16-byte) algorithm specifier followed by length-prefixed key bytes. -/
structure SiaPublicKey where
  Algorithm : List Nat
  Key : List Nat
deriving DecidableEq

/-- Modelled from the spec: `marshalPubKeyTable` (§4.2), whose Go
implementation is absent from the source sample — entry count, then per
entry the 16-byte algorithm specifier followed by the length-prefixed key
bytes. -/
def marshalPubKeyTable (t : List SiaPublicKey) : List Nat :=
  encLE 8 t.length ++
    (t.map fun e => e.Algorithm ++ encLE 8 e.Key.length ++ e.Key).flatten

/-- Modelled from the spec: the entry loop of `unmarshalPubKeyTable` (§4.2)
— read `n` table entries, failing when the buffer is truncated. -/
def readPubKeys : Nat → List Nat → Option (List SiaPublicKey × List Nat)
  | 0, b => some ([], b)
  | n + 1, b =>
    (readBytes 16 b).bind fun al =>
    (readU64 al.2).bind fun kl =>
    (readBytes kl.1 kl.2).bind fun ky =>
    (readPubKeys n ky.2).bind fun rest =>
    some (⟨al.1, ky.1⟩ :: rest.1, rest.2)

/-- Modelled from the spec: `unmarshalPubKeyTable` (§4.2), whose Go
implementation is absent from the source sample. -/
def unmarshalPubKeyTable (b : List Nat) : Option (List SiaPublicKey) :=
  (readU64 b).bind fun n =>
  (readPubKeys n.1 n.2).bind fun t =>
  some t.1

/-- A table the on-disk format can represent exactly: 64-bit entry count,
16-byte algorithm specifiers, 64-bit key lengths. -/
def validPubKeyTable (t : List SiaPublicKey) : Prop :=
  t.length < 2 ^ 64 ∧ ∀ e ∈ t, e.Algorithm.length = 16 ∧ e.Key.length < 2 ^ 64

instance (t : List SiaPublicKey) : Decidable (validPubKeyTable t) := by
  unfold validPubKeyTable
  infer_instance

/-! ### Account-balance RPC payment check

From `managedRPCAccountBalance` in the source: after payment processing, a
payment below the price table's `AccountBalanceCost` is rejected with
`ErrInsufficientPaymentForRPC` before any refund; otherwise the excess
`amount - AccountBalanceCost` is refunded to the payer's account.  Currency
amounts are unbounded non-negative integers.  The surrounding stream I/O is
outside this model; `.ok refund` stands for the refund credited by
`callRefund`, and an error return means no refund was issued. -/
inductive BalanceRPCErr where
  | insufficientPaymentForRPC
deriving DecidableEq

def managedRPCAccountBalance (amount accountBalanceCost : Nat) :
    Except BalanceRPCErr Nat :=
  if amount < accountBalanceCost then
    Except.error .insufficientPaymentForRPC
  else
    Except.ok (amount - accountBalanceCost)

/-! ### Concrete sample values used by the claim witnesses -/

/-- A blank owning instance: empty resolved path, production dependency,
blank backing file, no logged transactions. -/
def blankSF : SiaFile := ⟨[], prodDep, ⟨[], 0⟩, []⟩

/-- An owning instance with a two-byte resolved path. -/
def sampleSF : SiaFile := ⟨[9, 8], prodDep, ⟨[], 0⟩, []⟩

/-- A sixteen-byte payload. -/
def pl16 : List Nat := List.replicate 16 1

/-- A fault schedule that fails the first write call and then heals. -/
def faultFirstWrite : Nat → Bool := fun n => n == 0

/-- A one-record transaction sequence. -/
def recSample : Rec := ⟨0, [7]⟩

def TSample : List (List Rec) := [[recSample]]

def mdSample : Metadata :=
  ⟨1, 5, [1], [2], List.replicate 32 0, List.replicate 32 0,
    1, 2, 3, 4, 5, 6, 7, 8, 9, 10, (30, 10)⟩

def mdSampleEC : Metadata := { mdSample with staticErasureCode := (20, 10) }

def mdSampleV : Metadata := { mdSample with StaticVersion := 2 }

def pkSample : List SiaPublicKey :=
  [⟨List.replicate 16 1, [1, 2, 3]⟩, ⟨List.replicate 16 2, []⟩]

def updSample : List Nat := mkUpdate [3] 0 [5]

theorem encLE_length (k n : Nat) : (encLE k n).length = k := by
  induction k generalizing n with
  | zero => rfl
  | succ k ih => simp [encLE, ih]

theorem decLE_encLE (k n : Nat) : decLE (encLE k n) = n % 256 ^ k := by
  induction k generalizing n with
  | zero => simp [encLE, decLE, Nat.mod_one]
  | succ k ih =>
    simp only [encLE, decLE, ih]
    rw [pow_succ, mul_comm (256 ^ k) 256, Nat.mod_mul]

theorem decLE_encLE_of_lt {k n : Nat} (h : n < 256 ^ k) :
    decLE (encLE k n) = n := by
  rw [decLE_encLE, Nat.mod_eq_of_lt h]

theorem encInt64_length (i : Int) : (encInt64 i).length = 8 :=
  encLE_length 8 _

theorem decInt64_encInt64 {i : Int} (h0 : -(2 ^ 63) ≤ i) (h1 : i < 2 ^ 63) :
    decInt64 (encInt64 i) = i := by
  have hnn : 0 ≤ (i % 2 ^ 64) := Int.emod_nonneg i (by norm_num)
  have hlt : (i % 2 ^ 64) < 2 ^ 64 := Int.emod_lt_of_pos i (by norm_num)
  have htn : (((i % 2 ^ 64)).toNat : Int) = (i % 2 ^ 64) := Int.toNat_of_nonneg hnn
  have hb : ((i % 2 ^ 64)).toNat < 256 ^ 8 := by
    norm_num at hlt ⊢
    omega
  have hdec : decLE (encLE 8 ((i % 2 ^ 64)).toNat) = ((i % 2 ^ 64)).toNat :=
    decLE_encLE_of_lt hb
  have hval : (i % 2 ^ 64) = if i < 0 then i + 2 ^ 64 else i := by
    norm_num at h0 h1 ⊢
    split <;> omega
  simp only [decInt64, encInt64, hdec]
  norm_num at htn hval h0 h1 ⊢
  split <;> omega

theorem pad_length (f : List Nat) (i : Nat) :
    (pad f i).length = max f.length i := by
  simp [pad]
  omega

theorem pad_getElem? (f : List Nat) (i j : Nat) (hj : j < f.length ∨ i ≤ j) :
    (pad f i)[j]? = f[j]? := by
  rw [pad, List.getElem?_append]
  rcases hj with hj | hj
  · rw [if_pos hj]
  · split
    · rfl
    · rw [List.getElem?_replicate, if_neg (by omega), eq_comm,
        List.getElem?_eq_none (by omega)]

theorem pad_getD (f : List Nat) (i j : Nat) :
    (pad f i).getD j 0 = f.getD j 0 := by
  rw [List.getD_eq_getElem?_getD, List.getD_eq_getElem?_getD, pad,
    List.getElem?_append]
  split
  · rfl
  · rw [List.getElem?_replicate, eq_comm, List.getElem?_eq_none (by omega)]
    split <;> rfl

theorem writeAt_length (f : List Nat) (i : Nat) (p : List Nat) :
    (writeAt f i p).length = max f.length (i + p.length) := by
  have h := pad_length f i
  simp only [writeAt, List.length_append, List.length_take, List.length_drop, h]
  omega

/-- Pointwise characterization of `writeAt`: inside `[i, i + |p|)` the file
holds the payload byte, elsewhere it holds the old byte (with reads past
end-of-file defaulting to 0, so a zero-extension gap also reads 0). -/
theorem writeAt_getD (f : List Nat) (i : Nat) (p : List Nat) (j : Nat) :
    (writeAt f i p).getD j 0 =
      if i ≤ j ∧ j < i + p.length then p.getD (j - i) 0 else f.getD j 0 := by
  have hpl : (pad f i).length = max f.length i := pad_length f i
  have htl : ((pad f i).take i).length = i := by
    rw [List.length_take]
    omega
  rw [writeAt, List.getD_eq_getElem?_getD, List.append_assoc, List.getElem?_append]
  split
  · rename_i hlt
    rw [htl] at hlt
    rw [if_neg (by omega), List.getElem?_take, if_pos hlt,
      ← List.getD_eq_getElem?_getD, pad_getD]
  · rename_i hge
    rw [htl] at hge
    rw [List.getElem?_append, htl]
    by_cases hp : j - i < p.length
    · rw [if_pos hp, if_pos (show i ≤ j ∧ j < i + p.length by omega),
        List.getD_eq_getElem?_getD]
    · rw [if_neg hp, if_neg (show ¬(i ≤ j ∧ j < i + p.length) by omega),
        List.getElem?_drop, ← List.getD_eq_getElem?_getD]
      have : i + p.length + (j - i - p.length) = j := by omega
      rw [this, pad_getD]

theorem writeAt_getD_payload (f : List Nat) (i : Nat) (p : List Nat) (k : Nat)
    (hk : k < p.length) : (writeAt f i p).getD (i + k) 0 = p.getD k 0 := by
  rw [writeAt_getD, if_pos (by omega), Nat.add_sub_cancel_left]

theorem writeAt_getD_before (f : List Nat) (i : Nat) (p : List Nat) (j : Nat)
    (hj : j < i) : (writeAt f i p).getD j 0 = f.getD j 0 := by
  rw [writeAt_getD, if_neg (by omega)]

theorem applyList_nil (f : List Nat) : applyList [] f = f := rfl

theorem applyList_cons (r : Rec) (rs : List Rec) (f : List Nat) :
    applyList (r :: rs) f = applyList rs (writeAt f r.off r.payload) := rfl

theorem applyList_append (a b : List Rec) (f : List Nat) :
    applyList (a ++ b) f = applyList b (applyList a f) :=
  List.foldl_append _ _ _ _

theorem firstSome_some (v : Nat) (b : Option Nat) :
    firstSome (some v) b = some v := rfl

theorem firstSome_none (b : Option Nat) : firstSome none b = b := rfl

theorem lastWriteFrom_nil (j : Nat) (o : Option Nat) :
    lastWriteFrom j [] o = o := rfl

theorem lastWriteFrom_cons (j : Nat) (r : Rec) (rs : List Rec) (o : Option Nat) :
    lastWriteFrom j (r :: rs) o =
      lastWriteFrom j rs
        (if covers r j then some (r.payload.getD (j - r.off) 0) else o) := rfl

theorem lastWrite_cons (j : Nat) (r : Rec) (rs : List Rec) :
    lastWrite j (r :: rs) =
      lastWriteFrom j rs
        (if covers r j then some (r.payload.getD (j - r.off) 0) else none) := rfl

theorem lastWriteFrom_shift (j : Nat) (rs : List Rec) (o : Option Nat) :
    lastWriteFrom j rs o = firstSome (lastWrite j rs) o := by
  induction rs generalizing o with
  | nil => simp [lastWrite, lastWriteFrom, firstSome]
  | cons r rs ih =>
    rw [lastWriteFrom_cons, ih, lastWrite_cons, ih]
    by_cases hc : covers r j
    · rw [if_pos hc, if_pos hc]
      cases lastWrite j rs <;> rfl
    · rw [if_neg hc, if_neg hc]
      cases lastWrite j rs <;> rfl

theorem maxLen_cons (r : Rec) (rs : List Rec) (n : Nat) :
    maxLen (r :: rs) n = maxLen rs (max n r.ext) := rfl

theorem maxLen_le {rs : List Rec} {n m : Nat} (hn : n ≤ m)
    (h : ∀ r ∈ rs, r.ext ≤ m) : maxLen rs n ≤ m := by
  induction rs generalizing n with
  | nil => exact hn
  | cons r rs ih =>
    rw [maxLen_cons]
    exact ih (by simp [hn, h r (by simp)]) (fun x hx => h x (by simp [hx]))

theorem maxLen_mono {rs : List Rec} {n m : Nat} (h : n ≤ m) :
    maxLen rs n ≤ maxLen rs m := by
  induction rs generalizing n m with
  | nil => exact h
  | cons r rs ih => exact ih (max_le_max h (le_refl r.ext))

theorem le_maxLen (rs : List Rec) (n : Nat) : n ≤ maxLen rs n := by
  induction rs generalizing n with
  | nil => exact le_refl n
  | cons r rs ih => exact le_trans (le_max_left _ _) (ih _)

theorem ext_le_maxLen {rs : List Rec} {r : Rec} (h : r ∈ rs) (n : Nat) :
    r.ext ≤ maxLen rs n := by
  induction rs generalizing n with
  | nil => cases h
  | cons x rs ih =>
    rw [maxLen_cons]
    rcases List.mem_cons.1 h with rfl | h
    · exact le_trans (le_max_right _ _) (le_maxLen _ _)
    · exact ih h _

theorem applyList_length (rs : List Rec) (f : List Nat) :
    (applyList rs f).length = maxLen rs f.length := by
  induction rs generalizing f with
  | nil => rfl
  | cons r rs ih =>
    rw [applyList_cons, ih, writeAt_length, maxLen_cons]
    rfl

/-- Pointwise characterization of a sequence of writes: position `j` holds
the byte of the last covering record, or the original byte if no record in
the sequence covers `j`. -/
theorem applyList_getD (rs : List Rec) (f : List Nat) (j : Nat) :
    (applyList rs f).getD j 0 = (lastWrite j rs).getD (f.getD j 0) := by
  induction rs generalizing f with
  | nil => rfl
  | cons r rs ih =>
    rw [applyList_cons, ih, writeAt_getD, lastWrite_cons, lastWriteFrom_shift]
    cases hl : lastWrite j rs with
    | some w =>
      rw [firstSome_some]
      rfl
    | none =>
      rw [firstSome_none]
      by_cases hc : covers r j
      · rw [if_pos hc,
          if_pos (show r.off ≤ j ∧ j < r.off + r.payload.length from hc)]
        rfl
      · rw [if_neg hc,
          if_neg (show ¬(r.off ≤ j ∧ j < r.off + r.payload.length) from hc)]

theorem lastWrite_mem {j : Nat} {rs : List Rec} {v : Nat}
    (h : lastWrite j rs = some v) :
    ∃ r ∈ rs, covers r j ∧ v = r.payload.getD (j - r.off) 0 := by
  induction rs with
  | nil => cases h
  | cons r rs ih =>
    rw [lastWrite_cons, lastWriteFrom_shift] at h
    cases hl : lastWrite j rs with
    | some w =>
      rw [hl, firstSome_some] at h
      obtain ⟨x, hx, hc, hv⟩ := ih (hl.trans h)
      exact ⟨x, by simp [hx], hc, hv⟩
    | none =>
      rw [hl, firstSome_none] at h
      by_cases hc : covers r j
      · rw [if_pos hc] at h
        exact ⟨r, by simp, hc, by injection h.symm⟩
      · rw [if_neg hc] at h
        cases h

theorem lastWrite_eq_none_iff {j : Nat} {rs : List Rec} :
    lastWrite j rs = none ↔ ∀ r ∈ rs, ¬covers r j := by
  induction rs with
  | nil => simp [lastWrite, lastWriteFrom]
  | cons r rs ih =>
    rw [lastWrite_cons, lastWriteFrom_shift, List.forall_mem_cons, ← ih]
    cases hl : lastWrite j rs with
    | some w =>
      rw [firstSome_some]
      simp
    | none =>
      rw [firstSome_none]
      by_cases hc : covers r j
      · simp [if_pos hc, hc]
      · simp [if_neg hc, hc]

theorem lastWrite_append (j : Nat) (a b : List Rec) :
    lastWrite j (a ++ b) = firstSome (lastWrite j b) (lastWrite j a) := by
  have h : lastWrite j (a ++ b) = lastWriteFrom j b (lastWrite j a) := by
    rw [lastWrite, lastWriteFrom, List.foldl_append]
    rfl
  rw [h, lastWriteFrom_shift]

/-- Two byte lists with the same length and the same defaulted reads are
equal. -/
theorem eq_of_length_getD {a b : List Nat} (hlen : a.length = b.length)
    (h : ∀ j, a.getD j 0 = b.getD j 0) : a = b := by
  apply List.ext_getElem?
  intro n
  by_cases hn : n < a.length
  · have ha := List.getElem?_eq_getElem hn
    have hb := List.getElem?_eq_getElem (show n < b.length by omega)
    have := h n
    rw [List.getD_eq_getElem?_getD, List.getD_eq_getElem?_getD, ha, hb] at this
    rw [ha, hb]
    simpa using this
  · rw [List.getElem?_eq_none (by omega), List.getElem?_eq_none (by omega)]

/-- Absorption: if every record of `s` also occurs in `t`, then running `s`
and then `t` leaves the same file as running `t` alone.  This is the heart of
idempotent replay: a partially applied sequence is harmlessly overwritten by
the full replay. -/
theorem applyList_absorb {s t : List Rec} (h : ∀ r ∈ s, r ∈ t) (f : List Nat) :
    applyList (s ++ t) f = applyList t f := by
  have hmax : maxLen (s ++ t) f.length = maxLen t f.length := by
    have heq : maxLen (s ++ t) f.length = maxLen t (maxLen s f.length) :=
      List.foldl_append _ _ _ _
    have h1 : maxLen t (maxLen s f.length) ≤ maxLen t f.length :=
      maxLen_le (maxLen_le (le_maxLen _ _) (fun r hr => ext_le_maxLen (h r hr) _))
        (fun r hr => ext_le_maxLen hr _)
    have h2 : maxLen t f.length ≤ maxLen t (maxLen s f.length) :=
      maxLen_mono (le_maxLen _ _)
    omega
  apply eq_of_length_getD
  · rw [applyList_length, applyList_length, hmax]
  · intro j
    rw [applyList_getD, applyList_getD, lastWrite_append]
    cases hb : lastWrite j t with
    | some v => rw [firstSome_some]
    | none =>
      have hs : lastWrite j s = none :=
        lastWrite_eq_none_iff.2 fun r hr => lastWrite_eq_none_iff.1 hb r (h r hr)
      rw [firstSome_none, hs]

/-- Idempotence of a single record write. -/
theorem writeAt_idem (f : List Nat) (i : Nat) (p : List Nat) :
    writeAt (writeAt f i p) i p = writeAt f i p := by
  have := applyList_absorb (s := [⟨i, p⟩]) (t := [⟨i, p⟩]) (by simp) f
  simpa [applyList, writeAt] using this

theorem readBytes_exact {l : List Nat} {k : Nat} (h : l.length = k)
    (r : List Nat) : readBytes k (l ++ r) = some (l, r) := by
  rw [readBytes, if_pos (by simp [← h]), List.take_left' h, List.drop_left' h]

theorem readU64_enc {n : Nat} (h : n < 2 ^ 64) (r : List Nat) :
    readU64 (encLE 8 n ++ r) = some (n, r) := by
  rw [readU64, readBytes_exact (encLE_length 8 n)]
  simp only [Option.map_some']
  rw [decLE_encLE_of_lt (by norm_num at h ⊢; omega)]

theorem readI64_enc {i : Int} (h0 : -(2 ^ 63) ≤ i) (h1 : i < 2 ^ 63)
    (r : List Nat) : readI64 (encInt64 i ++ r) = some (i, r) := by
  rw [readI64, readBytes_exact (encInt64_length i)]
  simp only [Option.map_some']
  rw [decInt64_encInt64 h0 h1]

/-- Round trip of the update-record codec. -/
theorem readUpdate_mkUpdate {path payload : List Nat} {off : Int}
    (hp : path.length < 2 ^ 64) (hd : payload.length < 2 ^ 64)
    (h0 : -(2 ^ 63) ≤ off) (h1 : off < 2 ^ 63) :
    readUpdate (mkUpdate path off payload) = some (path, off, payload) := by
  rw [mkUpdate, readUpdate]
  rw [List.append_assoc, List.append_assoc, List.append_assoc,
    readU64_enc hp]
  simp only [Option.some_bind]
  rw [readBytes_exact rfl]
  simp only [Option.some_bind]
  rw [readI64_enc h0 h1]
  simp only [Option.some_bind]
  rw [readU64_enc hd]
  simp only [Option.some_bind]
  simp

theorem decRecs_append (a b : List (List Nat)) :
    decRecs (a ++ b) = decRecs a ++ decRecs b :=
  List.filterMap_append _ _ _

/-- A healthy run of the apply engine applies every record, in order. -/
theorem applyUpdates_healthy (d : Disk) (us : List (List Nat))
    (hwf : ∀ u ∈ us, WfUpdate u) :
    applyUpdates prodDep d us =
      (⟨applyList (decRecs us) d.file, d.writes + us.length⟩, none) := by
  induction us generalizing d with
  | nil => simp [applyUpdates, decRecs, applyList]
  | cons u rest ih =>
    have hu : WfUpdate u := hwf u (by simp)
    rw [applyUpdates]
    cases hr : readUpdate u with
    | none => simp [WfUpdate, decRec, hr] at hu
    | some t =>
      obtain ⟨p, off, payload⟩ := t
      have hoff : ¬off < 0 := by
        intro hlt
        simp [WfUpdate, decRec, hr, if_pos hlt] at hu
      simp only []
      rw [if_neg hoff, if_neg (by simp [prodDep])]
      rw [ih _ (fun x hx => hwf x (by simp [hx]))]
      have hdec : decRecs (u :: rest) = ⟨off.toNat, payload⟩ :: decRecs rest := by
        simp [decRecs, decRec, hr, if_neg hoff]
      rw [hdec, applyList_cons]
      simp [Nat.add_comm, Nat.add_assoc, Nat.add_left_comm]

/-- Every run of the apply engine leaves the file equal to some take of the
record sequence applied in order (the partially-applied tail on a fault),
and a successful run applies everything. -/
theorem applyUpdates_run (dep : Nat → Bool) (d : Disk) (us : List (List Nat)) :
    ∃ j ≤ us.length,
      (applyUpdates dep d us).1.file = applyList (decRecs (us.take j)) d.file ∧
      ((applyUpdates dep d us).2 = none →
        (j = us.length ∧ ∀ u ∈ us, WfUpdate u)) := by
  induction us generalizing d with
  | nil =>
    exact ⟨0, by simp, by simp [applyUpdates, decRecs, applyList], by simp⟩
  | cons u rest ih =>
    rw [applyUpdates]
    cases hr : readUpdate u with
    | none =>
      exact ⟨0, by simp, by simp [decRecs, applyList], by simp⟩
    | some t =>
      obtain ⟨p, off, payload⟩ := t
      simp only []
      by_cases hoff : off < 0
      · rw [if_pos hoff]
        exact ⟨0, by simp, by simp [decRecs, applyList], by simp⟩
      · rw [if_neg hoff]
        by_cases hdep : dep d.writes
        · rw [if_pos hdep]
          exact ⟨0, by simp, by simp [decRecs, applyList], by simp⟩
        · rw [if_neg hdep]
          obtain ⟨j, hj, hfile, hsucc⟩ := ih ⟨writeAt d.file off.toNat payload, d.writes + 1⟩
          refine ⟨j + 1, by simp; omega, ?_, ?_⟩
          · rw [hfile]
            have : decRecs ((u :: rest).take (j + 1)) =
                ⟨off.toNat, payload⟩ :: decRecs (rest.take j) := by
              simp [decRecs, decRec, hr, if_neg hoff]
            rw [this, applyList_cons]
          · intro he
            obtain ⟨hjl, hwf⟩ := hsucc he
            refine ⟨by simp [hjl], ?_⟩
            intro x hx
            rcases List.mem_cons.1 hx with rfl | hx
            · simp [WfUpdate, decRec, hr, if_neg hoff]
            · exact hwf x hx

theorem mem_flatten_cons_left {α : Type} {u : α} {t : List α} {ts : List (List α)}
    (hu : u ∈ t) : u ∈ (t :: ts).flatten := by
  rw [List.flatten_cons]
  exact List.mem_append_left _ hu

theorem mem_flatten_cons_right {α : Type} {u : α} {t : List α} {ts : List (List α)}
    (hu : u ∈ ts.flatten) : u ∈ (t :: ts).flatten := by
  rw [List.flatten_cons]
  exact List.mem_append_right _ hu

/-- A healthy replay completes every transaction and applies all records in
log order. -/
theorem replayTransactions_healthy (d : Disk) (txns : List (List (List Nat)))
    (hwf : ∀ u ∈ txns.flatten, WfUpdate u) :
    replayTransactions prodDep d txns =
      (⟨applyList (decRecs txns.flatten) d.file, d.writes + txns.flatten.length⟩,
        txns.length, none) := by
  induction txns generalizing d with
  | nil => simp [replayTransactions, decRecs, applyList]
  | cons t ts ih =>
    rw [replayTransactions,
      applyUpdates_healthy d t (fun u hu => hwf u (mem_flatten_cons_left hu))]
    simp only []
    rw [ih _ (fun u hu => hwf u (mem_flatten_cons_right hu))]
    simp [List.flatten_cons, decRecs_append, applyList_append, Nat.add_assoc]

/-- Characterization of an arbitrary replay run: some number `k` of leading
transactions completes, in log order; the file additionally contains a
partially applied fragment of transaction `k`; the run reports success
exactly when every transaction completed. -/
theorem replayTransactions_run (dep : Nat → Bool) (d : Disk)
    (txns : List (List (List Nat))) :
    ∃ k ≤ txns.length, ∃ j,
      (replayTransactions dep d txns).2.1 = k ∧
      (replayTransactions dep d txns).1.file =
        applyList (decRecs (txns.take k).flatten ++
          decRecs ((txns.getD k []).take j)) d.file ∧
      ((replayTransactions dep d txns).2.2 = none ↔ k = txns.length) := by
  induction txns generalizing d with
  | nil =>
    refine ⟨0, by simp, 0, ?_⟩
    simp [replayTransactions, decRecs, applyList]
  | cons t ts ih =>
    rw [replayTransactions]
    cases ha : applyUpdates dep d t with
    | mk d1 e1 =>
      cases e1 with
      | none =>
        simp only []
        obtain ⟨k, hk, j, hcount, hfile, hiff⟩ := ih d1
        cases hr : replayTransactions dep d1 ts with
        | mk d2 ke =>
          obtain ⟨kk, ee⟩ := ke
          rw [hr] at hcount hfile hiff
          simp only [] at hcount hfile hiff
          refine ⟨k + 1, by simp; omega, j, by simp [hcount], ?_, ?_⟩
          · obtain ⟨j0, hj0, hf0, hs0⟩ := applyUpdates_run dep d t
            rw [ha] at hf0 hs0
            obtain ⟨hj0l, _⟩ := hs0 rfl
            rw [hj0l, List.take_length] at hf0
            simp only [] at hf0
            simp only [hfile, hf0, List.take_succ_cons, List.flatten_cons,
              decRecs_append, List.getD_cons_succ]
            rw [List.append_assoc, applyList_append, applyList_append,
              applyList_append]
          · simp only [List.length_cons]
            constructor
            · intro h
              have := hiff.1 (by simpa using h)
              omega
            · intro h
              simpa using hiff.2 (by omega)
      | some e =>
        simp only []
        refine ⟨0, by simp, ?_⟩
        obtain ⟨j0, hj0, hf0, _⟩ := applyUpdates_run dep d t
        rw [ha] at hf0
        simp only [] at hf0
        refine ⟨j0, rfl, ?_, by simp⟩
        simpa [decRecs, applyList] using hf0

/-- Records of a partially-applied fragment of the next incomplete
transaction occur among the records of the remaining transactions. -/
theorem frag_subset_drop {txns : List (List (List Nat))} {k j : Nat}
    (hk : k < txns.length) :
    ∀ r ∈ decRecs ((txns.getD k []).take j),
      r ∈ decRecs (txns.drop k).flatten := by
  intro r hr
  obtain ⟨u, hu, hdec⟩ := List.mem_filterMap.1 hr
  refine List.mem_filterMap.2 ⟨u, ?_, hdec⟩
  have hu2 : u ∈ txns.getD k [] := List.mem_of_mem_take hu
  rw [List.getD_eq_getElem _ _ hk] at hu2
  have hdrop : txns.drop k = txns[k] :: txns.drop (k + 1) :=
    List.drop_eq_getElem_cons hk
  rw [hdrop, List.flatten_cons]
  exact List.mem_append_left _ hu2

/-- Retried replay is safe: after a replay attempt that stopped at a disk
fault, a later healthy replay of the still-incomplete transactions yields
exactly the file a healthy replay of all transactions from the original
state yields. -/
theorem replayTransactions_retry (dep : Nat → Bool) (d : Disk)
    (txns : List (List (List Nat))) (hwf : ∀ u ∈ txns.flatten, WfUpdate u)
    (hfault : (replayTransactions dep d txns).2.2 ≠ none) :
    (replayTransactions prodDep (replayTransactions dep d txns).1
        (txns.drop (replayTransactions dep d txns).2.1)).1.file =
      (replayTransactions prodDep d txns).1.file := by
  obtain ⟨k, hk, j, hcount, hfile, hiff⟩ := replayTransactions_run dep d txns
  have hklt : k < txns.length := by
    rcases Nat.lt_or_ge k txns.length with h | h
    · exact h
    · exact absurd (hiff.2 (by omega)) hfault
  have hwfdrop : ∀ u ∈ (txns.drop k).flatten, WfUpdate u := by
    intro u hu
    apply hwf
    obtain ⟨l, hl, hul⟩ := List.mem_flatten.1 hu
    exact List.mem_flatten.2 ⟨l, List.mem_of_mem_drop hl, hul⟩
  rw [hcount, replayTransactions_healthy _ _ hwfdrop,
    replayTransactions_healthy _ _ hwf]
  simp only [hfile]
  rw [← applyList_append, List.append_assoc, applyList_append,
    applyList_absorb (frag_subset_drop hklt), ← applyList_append,
    ← decRecs_append, ← List.flatten_append, List.take_append_drop]

theorem flatten_take_succ {T : List (List Rec)} {l : Nat} (h : l < T.length) :
    (T.take (l + 1)).flatten = (T.take l).flatten ++ T.getD l [] := by
  rw [List.take_succ, List.getElem?_eq_getElem h, List.flatten_append,
    List.getD_eq_getElem _ _ h]
  simp

theorem sliceRecs_self (T : List (List Rec)) (l : Nat) :
    sliceRecs T l l = [] := by
  rw [sliceRecs, List.drop_eq_nil_of_le (by rw [List.length_take]; omega)]
  rfl

theorem sliceRecs_succ_top {T : List (List Rec)} {l : Nat} (h : l < T.length) :
    sliceRecs T l (l + 1) = T.getD l [] := by
  have hlen : (T.take l).length = l := by rw [List.length_take]; omega
  rw [sliceRecs, List.take_succ, List.getElem?_eq_getElem h,
    show Option.toList (some T[l]) = [T[l]] from rfl, List.drop_left' hlen,
    List.getD_eq_getElem _ _ h]
  simp

theorem sliceRecs_cons {T : List (List Rec)} {c l : Nat} (hc : c < l)
    (hl : l ≤ T.length) :
    sliceRecs T c l = T.getD c [] ++ sliceRecs T (c + 1) l := by
  have hct : c < (T.take l).length := by rw [List.length_take]; omega
  rw [sliceRecs, sliceRecs, List.drop_eq_getElem_cons hct, List.flatten_cons]
  congr 1
  rw [List.getElem_take, List.getD_eq_getElem _ _ (by omega)]

theorem getD_mem_flatten {T : List (List Rec)} {i : Nat} (h : i < T.length)
    {r : Rec} (hr : r ∈ T.getD i []) : r ∈ T.flatten := by
  rw [List.getD_eq_getElem _ _ h] at hr
  exact List.mem_flatten.2 ⟨T[i], List.getElem_mem h, hr⟩

theorem reach_inv {T : List (List Rec)} {s : WState} (h : Reach T s) :
    Inv T s := by
  induction h with
  | init =>
    exact ⟨le_refl 0, Nat.zero_le _, by simp,
      by simp [sliceRecs, applyList]⟩
  | reset _ ih => exact ih
  | @opStep s k success hr hcl hlt hk hsk ih =>
    obtain ⟨h1, h2, h3, h4⟩ := ih
    rw [hcl, sliceRecs_self, applyList_nil] at h4
    have hmem : ∀ r ∈ s.hist ++ (T.getD s.logged []).take k, r ∈ T.flatten := by
      intro r hrm
      rcases List.mem_append.1 hrm with hrm | hrm
      · exact h3 r hrm
      · exact getD_mem_flatten hlt (List.mem_of_mem_take hrm)
    have hRHS : applyList (T.take (s.logged + 1)).flatten [] =
        applyList (T.getD s.logged []) (applyList s.hist []) := by
      rw [flatten_take_succ hlt, applyList_append, ← h4]
    cases success with
    | true =>
      have hkf : k = (T.getD s.logged []).length := hsk rfl
      have htk : (T.getD s.logged []).take k = T.getD s.logged [] := by
        rw [hkf, List.take_length]
      show Inv T ⟨s.completed + 1, s.logged + 1,
        s.hist ++ (T.getD s.logged []).take k⟩
      refine ⟨show s.completed + 1 ≤ s.logged + 1 by omega,
        show s.logged + 1 ≤ T.length by omega, hmem, ?_⟩
      show applyList (sliceRecs T (s.completed + 1) (s.logged + 1))
          (applyList (s.hist ++ (T.getD s.logged []).take k) []) =
        applyList (T.take (s.logged + 1)).flatten []
      rw [htk, hcl, sliceRecs_self, applyList_nil, applyList_append, hRHS]
    | false =>
      show Inv T ⟨s.completed, s.logged + 1,
        s.hist ++ (T.getD s.logged []).take k⟩
      refine ⟨show s.completed ≤ s.logged + 1 by omega,
        show s.logged + 1 ≤ T.length by omega, hmem, ?_⟩
      show applyList (sliceRecs T s.completed (s.logged + 1))
          (applyList (s.hist ++ (T.getD s.logged []).take k) []) =
        applyList (T.take (s.logged + 1)).flatten []
      rw [hcl, sliceRecs_succ_top hlt, hRHS]
      rw [← applyList_append, ← applyList_append, List.append_assoc,
        applyList_append,
        applyList_absorb (fun r hrm => List.mem_of_mem_take hrm),
        ← applyList_append]
  | @recStep s k success hr hcl hk hsk ih =>
    obtain ⟨h1, h2, h3, h4⟩ := ih
    have hclt : s.completed < T.length := by omega
    have hmem : ∀ r ∈ s.hist ++ (T.getD s.completed []).take k, r ∈ T.flatten := by
      intro r hrm
      rcases List.mem_append.1 hrm with hrm | hrm
      · exact h3 r hrm
      · exact getD_mem_flatten hclt (List.mem_of_mem_take hrm)
    rw [sliceRecs_cons hcl h2] at h4
    cases success with
    | true =>
      have hkf : k = (T.getD s.completed []).length := hsk rfl
      have htk : (T.getD s.completed []).take k = T.getD s.completed [] := by
        rw [hkf, List.take_length]
      show Inv T ⟨s.completed + 1, s.logged,
        s.hist ++ (T.getD s.completed []).take k⟩
      refine ⟨show s.completed + 1 ≤ s.logged by omega,
        show s.logged ≤ T.length from h2, hmem, ?_⟩
      show applyList (sliceRecs T (s.completed + 1) s.logged)
          (applyList (s.hist ++ (T.getD s.completed []).take k) []) =
        applyList (T.take s.logged).flatten []
      rw [htk, applyList_append, ← h4, applyList_append]
    | false =>
      show Inv T ⟨s.completed, s.logged,
        s.hist ++ (T.getD s.completed []).take k⟩
      refine ⟨h1, h2, hmem, ?_⟩
      show applyList (sliceRecs T s.completed s.logged)
          (applyList (s.hist ++ (T.getD s.completed []).take k) []) =
        applyList (T.take s.logged).flatten []
      rw [sliceRecs_cons hcl h2, ← h4]
      rw [← applyList_append, ← applyList_append, List.append_assoc,
        applyList_append,
        applyList_absorb (fun r hrm =>
          List.mem_append_left _ (List.mem_of_mem_take hrm)),
        ← applyList_append]

theorem readPubKeys_enc {t : List SiaPublicKey}
    (hv : ∀ e ∈ t, e.Algorithm.length = 16 ∧ e.Key.length < 2 ^ 64)
    (r : List Nat) :
    readPubKeys t.length
      ((t.map fun e => e.Algorithm ++ encLE 8 e.Key.length ++ e.Key).flatten ++ r)
      = some (t, r) := by
  induction t generalizing r with
  | nil => simp [readPubKeys]
  | cons e t ih =>
    obtain ⟨ha, hk⟩ := hv e (by simp)
    rw [List.length_cons, List.map_cons, List.flatten_cons, readPubKeys]
    rw [List.append_assoc, List.append_assoc, List.append_assoc,
      readBytes_exact ha]
    simp only [Option.some_bind]
    rw [readU64_enc hk]
    simp only [Option.some_bind]
    rw [readBytes_exact rfl]
    simp only [Option.some_bind]
    rw [ih (fun x hx => hv x (by simp [hx]))]
    simp only [Option.some_bind]

theorem readU64s_enc (n : Nat) {vs : List Nat} (hn : vs.length = n)
    (hv : ∀ v ∈ vs, v < 2 ^ 64) (r : List Nat) :
    readU64s n ((vs.map (encLE 8)).flatten ++ r) = some (vs, r) := by
  subst hn
  induction vs generalizing r with
  | nil => simp [readU64s]
  | cons v vs ih =>
    rw [List.length_cons, List.map_cons, List.flatten_cons, readU64s,
      List.append_assoc, readU64_enc (hv v (by simp))]
    simp only [Option.some_bind]
    rw [ih (fun x hx => hv x (by simp [hx]))]
    simp only [Option.some_bind]

/-- With well-formed records, the apply engine never reports a malformed
update: any failure is a disk fault. -/
theorem applyUpdates_no_malformed (dep : Nat → Bool) (d : Disk)
    (us : List (List Nat)) (hwf : ∀ u ∈ us, WfUpdate u) :
    (applyUpdates dep d us).2 ≠ some ApplyErr.malformedUpdate := by
  induction us generalizing d with
  | nil => simp [applyUpdates]
  | cons u rest ih =>
    have hu : WfUpdate u := hwf u (by simp)
    rw [applyUpdates]
    cases hr : readUpdate u with
    | none => simp [WfUpdate, decRec, hr] at hu
    | some t =>
      obtain ⟨p, off, payload⟩ := t
      have hoff : ¬off < 0 := by
        intro hlt
        simp [WfUpdate, decRec, hr, if_pos hlt] at hu
      simp only []
      rw [if_neg hoff]
      by_cases hdep : dep d.writes
      · rw [if_pos hdep]
        simp
      · rw [if_neg hdep]
        exact ih _ (fun x hx => hwf x (by simp [hx]))

/-- With well-formed transactions, replay never reports a malformed update. -/
theorem replayTransactions_no_malformed (dep : Nat → Bool) (d : Disk)
    (txns : List (List (List Nat))) (hwf : ∀ u ∈ txns.flatten, WfUpdate u) :
    (replayTransactions dep d txns).2.2 ≠ some ApplyErr.malformedUpdate := by
  induction txns generalizing d with
  | nil => simp [replayTransactions]
  | cons t ts ih =>
    rw [replayTransactions]
    cases ha : applyUpdates dep d t with
    | mk d1 e1 =>
      cases e1 with
      | none =>
        simp only []
        cases hr : replayTransactions dep d1 ts with
        | mk d2 ke =>
          obtain ⟨kk, ee⟩ := ke
          have := ih d1 (fun u hu => hwf u (mem_flatten_cons_right hu))
          rw [hr] at this
          simpa using this
      | some e =>
        have hnm : (applyUpdates dep d t).2 ≠ some ApplyErr.malformedUpdate :=
          applyUpdates_no_malformed dep d t
            (fun u hu => hwf u (mem_flatten_cons_left hu))
        rw [ha] at hnm
        simpa using hnm

/-! ### The claims -/

/-- Claim C1: for every file state and every update record created with
offset `i` and a payload of length `L`, the Transaction Apply Engine applies
the record by writing the payload at `i`; the resulting file size is
`max(previousSize, i + L)`, bytes `[i, i+L)` equal the payload, bytes
`[0, i)` are unchanged, and any gap created by zero-extension reads back as
zero. -/
theorem claim1_apply_single_update (sf : SiaFile) (payload : List Nat)
    (i : Nat) (hp : sf.siaFilePath.length < 2 ^ 64)
    (hd : payload.length < 2 ^ 64) (hi : i < 2 ^ 63) :
    applyUpdates prodDep sf.disk [sf.createUpdate (i : Int) payload] =
      (⟨writeAt sf.disk.file i payload, sf.disk.writes + 1⟩, none) ∧
    (writeAt sf.disk.file i payload).length =
      max sf.disk.file.length (i + payload.length) ∧
    (∀ k, k < payload.length →
      (writeAt sf.disk.file i payload).getD (i + k) 0 = payload.getD k 0) ∧
    (∀ j, j < i → j < sf.disk.file.length →
      (writeAt sf.disk.file i payload).getD j 0 = sf.disk.file.getD j 0) ∧
    (∀ j, sf.disk.file.length ≤ j → j < i →
      (writeAt sf.disk.file i payload).getD j 0 = 0) := by
  have h0 : -(2 ^ 63 : Int) ≤ (i : Int) :=
    le_trans (by norm_num) (Int.natCast_nonneg i)
  have h1 : (i : Int) < 2 ^ 63 := by exact_mod_cast hi
  have hru := @readUpdate_mkUpdate sf.siaFilePath payload (i : Int) hp hd h0 h1
  refine ⟨?_, writeAt_length _ _ _,
    fun k hk => writeAt_getD_payload _ _ _ _ hk,
    fun j hj hjf => writeAt_getD_before _ _ _ _ hj,
    fun j hjf hji => ?_⟩
  · rw [SiaFile.createUpdate, applyUpdates, hru]
    simp only []
    rw [if_neg (by omega), if_neg (by simp [prodDep]), Int.toNat_natCast]
    rfl
  · rw [writeAt_getD, if_neg (by omega), List.getD_eq_default _ _ hjf]

/-- Witness for C1 at the spec's concrete scenario: a blank file, an update
at offset 37 with a 16-byte payload. -/
theorem claim1_witness :
    (blankSF.siaFilePath.length < 2 ^ 64 ∧ pl16.length < 2 ^ 64 ∧
      37 < 2 ^ 63) ∧
    (applyUpdates prodDep blankSF.disk [blankSF.createUpdate (37 : Int) pl16] =
      (⟨writeAt blankSF.disk.file 37 pl16, blankSF.disk.writes + 1⟩, none) ∧
    (writeAt blankSF.disk.file 37 pl16).length =
      max blankSF.disk.file.length (37 + pl16.length) ∧
    (∀ k, k < pl16.length →
      (writeAt blankSF.disk.file 37 pl16).getD (37 + k) 0 = pl16.getD k 0) ∧
    (∀ j, j < 37 → j < blankSF.disk.file.length →
      (writeAt blankSF.disk.file 37 pl16).getD j 0 =
        blankSF.disk.file.getD j 0) ∧
    (∀ j, blankSF.disk.file.length ≤ j → j < 37 →
      (writeAt blankSF.disk.file 37 pl16).getD j 0 = 0)) :=
  ⟨⟨by decide, by decide, by decide⟩,
    claim1_apply_single_update blankSF pl16 37 (by decide) (by decide)
      (by decide)⟩

/-- Claim C4: applying the same update record twice through the Apply Engine
yields the same file contents as applying it once; re-applying never changes
already-correct bytes. -/
theorem claim4_reapply_idempotent (d : Disk) (u : List Nat) :
    (applyUpdates prodDep d [u, u]).1.file =
      (applyUpdates prodDep d [u]).1.file := by
  cases hr : readUpdate u with
  | none => simp [applyUpdates, hr]
  | some t =>
    obtain ⟨p, off, payload⟩ := t
    by_cases hoff : off < 0
    · simp [applyUpdates, hr, hoff]
    · simp [applyUpdates, hr, hoff, prodDep, writeAt_idem]

/-- Claim C5: from the same starting file state, the free-function entry
point with an explicit dependency, the instance method using the owner's
configured dependency, and the log-then-apply convenience produce
byte-identical resulting files. -/
theorem claim5_entry_points_agree (sf : SiaFile) (us : List (List Nat)) :
    (ApplyUpdates sf.deps sf.disk us).1.file =
      ((sf.applyUpdates us).1).disk.file ∧
    ((sf.applyUpdates us).1).disk.file =
      ((sf.createAndApplyTransaction us).1).disk.file := by
  cases h : Siad.applyUpdates sf.deps sf.disk us with
  | mk d e =>
    cases e <;>
      simp [ApplyUpdates, SiaFile.applyUpdates,
        SiaFile.createAndApplyTransaction, h]

/-- Claim C10: in the account-balance RPC handler, a processed payment below
the price table's AccountBalanceCost is rejected with
ErrInsufficientPaymentForRPC and no refund is issued; otherwise the refund
credited is exactly the payment amount minus AccountBalanceCost. -/
theorem claim10_account_balance (amount cost : Nat) :
    (amount < cost → managedRPCAccountBalance amount cost =
      Except.error BalanceRPCErr.insufficientPaymentForRPC) ∧
    (cost ≤ amount → managedRPCAccountBalance amount cost =
      Except.ok (amount - cost)) := by
  constructor
  · intro h
    rw [managedRPCAccountBalance, if_pos h]
  · intro h
    rw [managedRPCAccountBalance, if_neg (by omega)]

/-- Witness for C10 on both sides of the payment check. -/
theorem claim10_witness :
    (3 < 5 ∧ managedRPCAccountBalance 3 5 =
      Except.error BalanceRPCErr.insufficientPaymentForRPC) ∧
    (5 ≤ 7 ∧ managedRPCAccountBalance 7 5 = Except.ok 2) :=
  ⟨⟨by decide, (claim10_account_balance 3 5).1 (by decide)⟩,
    ⟨by decide, (claim10_account_balance 7 5).2 (by decide)⟩⟩

/-- Claim C8: reading back a record created by `createUpdate` returns
exactly the owning file's resolved path captured at creation time, the same
offset, and the same payload bytes. -/
theorem claim8_update_record_roundtrip (sf : SiaFile) (off : Int)
    (payload : List Nat) (hp : sf.siaFilePath.length < 2 ^ 64)
    (hd : payload.length < 2 ^ 64) (h0 : -(2 ^ 63) ≤ off) (h1 : off < 2 ^ 63) :
    readUpdate (sf.createUpdate off payload) =
      some (sf.siaFilePath, off, payload) := by
  rw [SiaFile.createUpdate]
  exact readUpdate_mkUpdate hp hd h0 h1

/-- Witness for C8 at a concrete record with a negative offset. -/
theorem claim8_witness :
    (sampleSF.siaFilePath.length < 2 ^ 64 ∧ ([1, 2, 3] : List Nat).length < 2 ^ 64 ∧
      -(2 ^ 63) ≤ (-5 : Int) ∧ (-5 : Int) < 2 ^ 63) ∧
    readUpdate (sampleSF.createUpdate (-5) [1, 2, 3]) =
      some (sampleSF.siaFilePath, -5, [1, 2, 3]) :=
  ⟨⟨by decide, by decide, by decide, by decide⟩,
    claim8_update_record_roundtrip sampleSF (-5) [1, 2, 3] (by decide)
      (by decide) (by decide) (by decide)⟩

/-- Claim C6: unmarshalling a marshalled valid metadata value succeeds and
returns a metadata value equal to the original on every field (version,
size, paths, keys, the four timestamps, mode, uid, gid, chunk-metadata size,
chunk offset, public-key-table offset — and the erasure-coding
configuration). -/
theorem claim6_metadata_roundtrip (m : Metadata) (h : validMetadata m) :
    unmarshalMetadata (marshalMetadata m) = some m := by
  obtain ⟨hver, hfs, hlp, hsp, hmk, hsk, hmt, hct, hat, hcrt, hmo, hui, hgi,
    hcms, hco, hpko, hnp, hmp⟩ := h
  have hvs : ∀ v ∈ [m.ModTime, m.ChangeTime, m.AccessTime, m.CreateTime,
      m.Mode, m.UID, m.Gid, m.StaticChunkMetadataSize, m.ChunkOffset,
      m.PubKeyTableOffset, m.staticErasureCode.1, m.staticErasureCode.2],
      v < 2 ^ 64 := by
    intro v hv
    simp only [List.mem_cons, List.not_mem_nil, or_false] at hv
    rcases hv with rfl | rfl | rfl | rfl | rfl | rfl | rfl | rfl | rfl | rfl
      | rfl | rfl <;> assumption
  rw [marshalMetadata, unmarshalMetadata, readMetaHead]
  simp only [List.append_assoc]
  rw [readU64_enc (show m.StaticVersion < 2 ^ 64 by
    rw [hver]; norm_num [metadataVersion])]
  simp only [Option.some_bind]
  rw [if_neg (show ¬(m.StaticVersion ≠ metadataVersion) by simp [hver])]
  rw [readU64_enc hfs]
  simp only [Option.some_bind]
  rw [readU64_enc hlp]
  simp only [Option.some_bind]
  rw [readBytes_exact rfl]
  simp only [Option.some_bind]
  rw [readU64_enc hsp]
  simp only [Option.some_bind]
  rw [readBytes_exact rfl]
  simp only [Option.some_bind]
  rw [readBytes_exact hmk]
  simp only [Option.some_bind]
  rw [readBytes_exact hsk]
  simp only [Option.some_bind]
  rw [show encLE 8 m.ModTime ++ (encLE 8 m.ChangeTime ++ (encLE 8 m.AccessTime ++
      (encLE 8 m.CreateTime ++ (encLE 8 m.Mode ++ (encLE 8 m.UID ++ (encLE 8 m.Gid ++
      (encLE 8 m.StaticChunkMetadataSize ++ (encLE 8 m.ChunkOffset ++
      (encLE 8 m.PubKeyTableOffset ++ (encLE 8 m.staticErasureCode.1 ++
      encLE 8 m.staticErasureCode.2)))))))))) =
      (([m.ModTime, m.ChangeTime, m.AccessTime, m.CreateTime, m.Mode, m.UID,
        m.Gid, m.StaticChunkMetadataSize, m.ChunkOffset, m.PubKeyTableOffset,
        m.staticErasureCode.1, m.staticErasureCode.2].map (encLE 8)).flatten ++
        ([] : List Nat))
      from by simp]
  rw [readU64s_enc 12 (by simp) hvs]
  simp only [Option.some_bind]
  rfl

/-- Witness for C6 at a concrete valid metadata value. -/
theorem claim6_witness :
    validMetadata mdSample ∧
      unmarshalMetadata (marshalMetadata mdSample) = some mdSample :=
  ⟨by decide, claim6_metadata_roundtrip mdSample (by decide)⟩

/-- Claim C7: unmarshalling a marshalled valid public-key table succeeds and
reconstructs the exact ordered sequence — same length and, at every index,
the same algorithm specifier and byte-equal key. -/
theorem claim7_pubkeytable_roundtrip (t : List SiaPublicKey)
    (h : validPubKeyTable t) :
    unmarshalPubKeyTable (marshalPubKeyTable t) = some t := by
  obtain ⟨hlen, hent⟩ := h
  rw [marshalPubKeyTable, unmarshalPubKeyTable, readU64_enc hlen]
  simp only [Option.some_bind]
  rw [show ((t.map fun e => e.Algorithm ++ encLE 8 e.Key.length ++ e.Key).flatten :
      List Nat) =
      (t.map fun e => e.Algorithm ++ encLE 8 e.Key.length ++ e.Key).flatten ++ []
      from by simp]
  rw [readPubKeys_enc hent []]
  simp only [Option.some_bind]

/-- Witness for C7 at a concrete two-entry table. -/
theorem claim7_witness :
    validPubKeyTable pkSample ∧
      unmarshalPubKeyTable (marshalPubKeyTable pkSample) = some pkSample :=
  ⟨by decide, claim7_pubkeytable_roundtrip pkSample (by decide)⟩

/-- Claim C9, counterexample: `AssertEqual` can return no error for two
metadata values that are not identical on every field of `Metadata` — they
differ in the erasure-coding configuration field, which `AssertEqual` does
not compare.  This refutes the right-to-left direction of the claimed
equivalence. -/
theorem claim9_counterexample :
    mdSample.AssertEqual mdSampleEC = none ∧ mdSample ≠ mdSampleEC := by
  constructor
  · decide
  · decide

theorem assertEqual_none_imp (md md2 : Metadata)
    (h : md.AssertEqual md2 = none) : ∀ fld, fieldEq md md2 fld := by
  rw [Metadata.AssertEqual] at h
  have e1 : md.StaticVersion = md2.StaticVersion := by
    by_contra hne
    rw [if_pos hne] at h
    cases h
  rw [if_neg (not_not_intro e1)] at h
  have e2 : md.StaticFileSize = md2.StaticFileSize := by
    by_contra hne
    rw [if_pos hne] at h
    cases h
  rw [if_neg (not_not_intro e2)] at h
  have e3 : md.LocalPath = md2.LocalPath := by
    by_contra hne
    rw [if_pos hne] at h
    cases h
  rw [if_neg (not_not_intro e3)] at h
  have e4 : md.SiaPath = md2.SiaPath := by
    by_contra hne
    rw [if_pos hne] at h
    cases h
  rw [if_neg (not_not_intro e4)] at h
  have e5 : md.StaticMasterKey = md2.StaticMasterKey := by
    by_contra hne
    rw [if_pos hne] at h
    cases h
  rw [if_neg (not_not_intro e5)] at h
  have e6 : md.StaticSharingKey = md2.StaticSharingKey := by
    by_contra hne
    rw [if_pos hne] at h
    cases h
  rw [if_neg (not_not_intro e6)] at h
  have e7 : md.ModTime = md2.ModTime := by
    by_contra hne
    rw [if_pos hne] at h
    cases h
  rw [if_neg (not_not_intro e7)] at h
  have e8 : md.ChangeTime = md2.ChangeTime := by
    by_contra hne
    rw [if_pos hne] at h
    cases h
  rw [if_neg (not_not_intro e8)] at h
  have e9 : md.AccessTime = md2.AccessTime := by
    by_contra hne
    rw [if_pos hne] at h
    cases h
  rw [if_neg (not_not_intro e9)] at h
  have e10 : md.CreateTime = md2.CreateTime := by
    by_contra hne
    rw [if_pos hne] at h
    cases h
  rw [if_neg (not_not_intro e10)] at h
  have e11 : md.Mode = md2.Mode := by
    by_contra hne
    rw [if_pos hne] at h
    cases h
  rw [if_neg (not_not_intro e11)] at h
  have e12 : md.UID = md2.UID := by
    by_contra hne
    rw [if_pos hne] at h
    cases h
  rw [if_neg (not_not_intro e12)] at h
  have e13 : md.Gid = md2.Gid := by
    by_contra hne
    rw [if_pos hne] at h
    cases h
  rw [if_neg (not_not_intro e13)] at h
  have e14 : md.StaticChunkMetadataSize = md2.StaticChunkMetadataSize := by
    by_contra hne
    rw [if_pos hne] at h
    cases h
  rw [if_neg (not_not_intro e14)] at h
  have e15 : md.ChunkOffset = md2.ChunkOffset := by
    by_contra hne
    rw [if_pos hne] at h
    cases h
  rw [if_neg (not_not_intro e15)] at h
  have e16 : md.PubKeyTableOffset = md2.PubKeyTableOffset := by
    by_contra hne
    rw [if_pos hne] at h
    cases h
  rw [if_neg (not_not_intro e16)] at h
  intro fld
  cases fld
  case staticVersion => exact e1
  case staticFileSize => exact e2
  case localPath => exact e3
  case siaPath => exact e4
  case staticMasterKey => exact e5
  case staticSharingKey => exact e6
  case modTime => exact e7
  case changeTime => exact e8
  case accessTime => exact e9
  case createTime => exact e10
  case mode => exact e11
  case uid => exact e12
  case gid => exact e13
  case staticChunkMetadataSize => exact e14
  case chunkOffset => exact e15
  case pubKeyTableOffset => exact e16

theorem assertEqual_of_fields (md md2 : Metadata)
    (hall : ∀ fld, fieldEq md md2 fld) : md.AssertEqual md2 = none := by
  have e1 : md.StaticVersion = md2.StaticVersion := hall .staticVersion
  have e2 : md.StaticFileSize = md2.StaticFileSize := hall .staticFileSize
  have e3 : md.LocalPath = md2.LocalPath := hall .localPath
  have e4 : md.SiaPath = md2.SiaPath := hall .siaPath
  have e5 : md.StaticMasterKey = md2.StaticMasterKey := hall .staticMasterKey
  have e6 : md.StaticSharingKey = md2.StaticSharingKey := hall .staticSharingKey
  have e7 : md.ModTime = md2.ModTime := hall .modTime
  have e8 : md.ChangeTime = md2.ChangeTime := hall .changeTime
  have e9 : md.AccessTime = md2.AccessTime := hall .accessTime
  have e10 : md.CreateTime = md2.CreateTime := hall .createTime
  have e11 : md.Mode = md2.Mode := hall .mode
  have e12 : md.UID = md2.UID := hall .uid
  have e13 : md.Gid = md2.Gid := hall .gid
  have e14 : md.StaticChunkMetadataSize = md2.StaticChunkMetadataSize := hall .staticChunkMetadataSize
  have e15 : md.ChunkOffset = md2.ChunkOffset := hall .chunkOffset
  have e16 : md.PubKeyTableOffset = md2.PubKeyTableOffset := hall .pubKeyTableOffset
  rw [Metadata.AssertEqual, if_neg (not_not_intro e1), if_neg (not_not_intro e2), if_neg (not_not_intro e3), if_neg (not_not_intro e4), if_neg (not_not_intro e5), if_neg (not_not_intro e6), if_neg (not_not_intro e7), if_neg (not_not_intro e8), if_neg (not_not_intro e9), if_neg (not_not_intro e10), if_neg (not_not_intro e11), if_neg (not_not_intro e12), if_neg (not_not_intro e13), if_neg (not_not_intro e14), if_neg (not_not_intro e15), if_neg (not_not_intro e16)]

theorem assertEqual_some_imp (md md2 : Metadata) :
    ∀ fld, md.AssertEqual md2 = some fld → ¬ fieldEq md md2 fld := by
  intro fld h
  rw [Metadata.AssertEqual] at h
  by_cases h1 : md.StaticVersion ≠ md2.StaticVersion
  · rw [if_pos h1] at h
    injection h with hf
    subst hf
    exact h1
  rw [if_neg h1] at h
  by_cases h2 : md.StaticFileSize ≠ md2.StaticFileSize
  · rw [if_pos h2] at h
    injection h with hf
    subst hf
    exact h2
  rw [if_neg h2] at h
  by_cases h3 : md.LocalPath ≠ md2.LocalPath
  · rw [if_pos h3] at h
    injection h with hf
    subst hf
    exact h3
  rw [if_neg h3] at h
  by_cases h4 : md.SiaPath ≠ md2.SiaPath
  · rw [if_pos h4] at h
    injection h with hf
    subst hf
    exact h4
  rw [if_neg h4] at h
  by_cases h5 : md.StaticMasterKey ≠ md2.StaticMasterKey
  · rw [if_pos h5] at h
    injection h with hf
    subst hf
    exact h5
  rw [if_neg h5] at h
  by_cases h6 : md.StaticSharingKey ≠ md2.StaticSharingKey
  · rw [if_pos h6] at h
    injection h with hf
    subst hf
    exact h6
  rw [if_neg h6] at h
  by_cases h7 : md.ModTime ≠ md2.ModTime
  · rw [if_pos h7] at h
    injection h with hf
    subst hf
    exact h7
  rw [if_neg h7] at h
  by_cases h8 : md.ChangeTime ≠ md2.ChangeTime
  · rw [if_pos h8] at h
    injection h with hf
    subst hf
    exact h8
  rw [if_neg h8] at h
  by_cases h9 : md.AccessTime ≠ md2.AccessTime
  · rw [if_pos h9] at h
    injection h with hf
    subst hf
    exact h9
  rw [if_neg h9] at h
  by_cases h10 : md.CreateTime ≠ md2.CreateTime
  · rw [if_pos h10] at h
    injection h with hf
    subst hf
    exact h10
  rw [if_neg h10] at h
  by_cases h11 : md.Mode ≠ md2.Mode
  · rw [if_pos h11] at h
    injection h with hf
    subst hf
    exact h11
  rw [if_neg h11] at h
  by_cases h12 : md.UID ≠ md2.UID
  · rw [if_pos h12] at h
    injection h with hf
    subst hf
    exact h12
  rw [if_neg h12] at h
  by_cases h13 : md.Gid ≠ md2.Gid
  · rw [if_pos h13] at h
    injection h with hf
    subst hf
    exact h13
  rw [if_neg h13] at h
  by_cases h14 : md.StaticChunkMetadataSize ≠ md2.StaticChunkMetadataSize
  · rw [if_pos h14] at h
    injection h with hf
    subst hf
    exact h14
  rw [if_neg h14] at h
  by_cases h15 : md.ChunkOffset ≠ md2.ChunkOffset
  · rw [if_pos h15] at h
    injection h with hf
    subst hf
    exact h15
  rw [if_neg h15] at h
  by_cases h16 : md.PubKeyTableOffset ≠ md2.PubKeyTableOffset
  · rw [if_pos h16] at h
    injection h with hf
    subst hf
    exact h16
  rw [if_neg h16] at h
  cases h

/-- Claim C9, amended: `AssertEqual md md2` returns no error iff `md` and
`md2` agree on every field it compares (the sixteen fields other than the
erasure-coding configuration), and when it returns an error, the reported
field is one on which they genuinely diverge. -/
theorem claim9_assert_equal_fields (md md2 : Metadata) :
    (md.AssertEqual md2 = none ↔ ∀ fld, fieldEq md md2 fld) ∧
    (∀ fld, md.AssertEqual md2 = some fld → ¬ fieldEq md md2 fld) :=
  ⟨⟨assertEqual_none_imp md md2, assertEqual_of_fields md md2⟩,
    assertEqual_some_imp md md2⟩

/-- Witness for C9's amended claim: a diverging pair where the reported
field is the one that diverges. -/
theorem claim9_witness :
    mdSample.AssertEqual mdSampleV = some MetaField.staticVersion ∧
      ¬ fieldEq mdSample mdSampleV MetaField.staticVersion :=
  ⟨by decide,
    (claim9_assert_equal_fields mdSample mdSampleV).2 MetaField.staticVersion
      (by decide)⟩

/-- Claim C2: under every interleaving of disk faults, dependency resets and
retried recovery attempts, every byte of the backing file is either zero or
a byte of some attempted payload at its correct offset (no silent
corruption); and whenever recovery has completed (every logged transaction
marked complete), the file is exactly the first `completed` transactions of
the intended sequence fully applied — a prefix, with each transaction fully
applied or not started. -/
theorem claim2_fault_interleavings_safe (T : List (List Rec)) (s : WState)
    (h : Reach T s) :
    (∀ j, (applyList s.hist []).getD j 0 = 0 ∨
      ∃ r, r ∈ s.hist ∧ r ∈ T.flatten ∧ covers r j ∧
        (applyList s.hist []).getD j 0 = r.payload.getD (j - r.off) 0) ∧
    (s.completed = s.logged →
      applyList s.hist [] = applyList (T.take s.completed).flatten []) := by
  obtain ⟨h1, h2, h3, h4⟩ := reach_inv h
  constructor
  · intro j
    rw [applyList_getD]
    cases hl : lastWrite j s.hist with
    | none =>
      left
      simp
    | some v =>
      right
      obtain ⟨r, hr, hc, hv⟩ := lastWrite_mem hl
      exact ⟨r, hr, h3 r hr, hc, by simp [hv]⟩
  · intro hcl
    rw [hcl, sliceRecs_self, applyList_nil] at h4
    rw [hcl]
    exact h4

/-- Witness for C2: the state reached by logging, applying and completing
the single transaction of a one-transaction intended sequence. -/
theorem claim2_witness :
    Reach TSample ⟨1, 1, [recSample]⟩ ∧
    ((∀ j, (applyList [recSample] []).getD j 0 = 0 ∨
      ∃ r, r ∈ [recSample] ∧ r ∈ TSample.flatten ∧ covers r j ∧
        (applyList [recSample] []).getD j 0 = r.payload.getD (j - r.off) 0) ∧
    ((1 : Nat) = 1 →
      applyList [recSample] [] = applyList (TSample.take 1).flatten [])) :=
  ⟨Reach.opStep 1 true Reach.init rfl (by decide) (by decide)
      (fun _ => by decide),
    claim2_fault_interleavings_safe TSample ⟨1, 1, [recSample]⟩
      (Reach.opStep 1 true Reach.init rfl (by decide) (by decide)
        (fun _ => by decide))⟩

/-- A run of the apply engine that reports a malformed update really met a
record the codec rejects. -/
theorem applyUpdates_malformed_mem (dep : Nat → Bool) (d : Disk)
    (us : List (List Nat))
    (h : (applyUpdates dep d us).2 = some ApplyErr.malformedUpdate) :
    ∃ u ∈ us, ¬WfUpdate u := by
  induction us generalizing d with
  | nil => simp [applyUpdates] at h
  | cons u rest ih =>
    rw [applyUpdates] at h
    cases hr : readUpdate u with
    | none =>
      exact ⟨u, by simp, by simp [WfUpdate, decRec, hr]⟩
    | some t =>
      obtain ⟨p, off, payload⟩ := t
      rw [hr] at h
      simp only [] at h
      by_cases hoff : off < 0
      · exact ⟨u, by simp, by simp [WfUpdate, decRec, hr, hoff]⟩
      · rw [if_neg hoff] at h
        by_cases hdep : dep d.writes
        · rw [if_pos hdep] at h
          simp at h
        · rw [if_neg hdep] at h
          obtain ⟨x, hx, hnw⟩ := ih _ h
          exact ⟨x, by simp [hx], hnw⟩

/-- A healthy run of the apply engine over a list containing a record the
codec rejects always fails with the malformed-update error — the failure is
structural, not transient. -/
theorem applyUpdates_healthy_malformed (d : Disk) (us : List (List Nat))
    (h : ∃ u ∈ us, ¬WfUpdate u) :
    (applyUpdates prodDep d us).2 = some ApplyErr.malformedUpdate := by
  induction us generalizing d with
  | nil => simp at h
  | cons u rest ih =>
    rw [applyUpdates]
    cases hr : readUpdate u with
    | none => simp
    | some t =>
      obtain ⟨p, off, payload⟩ := t
      simp only []
      by_cases hoff : off < 0
      · rw [if_pos hoff]
      · rw [if_neg hoff, if_neg (by simp [prodDep])]
        apply ih
        obtain ⟨x, hx, hnw⟩ := h
        rcases List.mem_cons.1 hx with rfl | hx2
        · exact absurd (show WfUpdate x by
            simp [WfUpdate, decRec, hr, hoff]) hnw
        · exact ⟨x, hx2, hnw⟩

/-- A replay that reports a malformed update met a rejected record inside
the first transaction it could not complete. -/
theorem replayTransactions_malformed_mem (dep : Nat → Bool) (d : Disk)
    (txns : List (List (List Nat)))
    (h : (replayTransactions dep d txns).2.2 = some ApplyErr.malformedUpdate) :
    ∃ u ∈ txns.getD (replayTransactions dep d txns).2.1 [], ¬WfUpdate u := by
  induction txns generalizing d with
  | nil => simp [replayTransactions] at h
  | cons t ts ih =>
    rw [replayTransactions] at h ⊢
    cases ha : applyUpdates dep d t with
    | mk d1 e1 =>
      rw [ha] at h
      cases e1 with
      | none =>
        simp only [] at h ⊢
        cases hr : replayTransactions dep d1 ts with
        | mk d2 ke =>
          obtain ⟨kk, ee⟩ := ke
          rw [hr] at h
          simp only [] at h ⊢
          have hih := ih d1
          rw [hr] at hih
          simp only [] at hih
          rw [List.getD_cons_succ]
          exact hih h
      | some e =>
        simp only [] at h ⊢
        injection h with he
        subst he
        rw [List.getD_cons_zero]
        exact applyUpdates_malformed_mem dep d t (by rw [ha])

/-- A malformed-update failure is fatal: retrying the replay of the
still-incomplete transactions fails with the same error even on a fully
healthy disk, from any disk state. -/
theorem replayTransactions_malformed_retry (dep : Nat → Bool) (d : Disk)
    (txns : List (List (List Nat)))
    (h : (replayTransactions dep d txns).2.2 = some ApplyErr.malformedUpdate)
    (d2 : Disk) :
    (replayTransactions prodDep d2
        (txns.drop (replayTransactions dep d txns).2.1)).2.2 =
      some ApplyErr.malformedUpdate := by
  obtain ⟨u, hu, hnw⟩ := replayTransactions_malformed_mem dep d txns h
  have hklt : (replayTransactions dep d txns).2.1 < txns.length := by
    by_contra hge
    rw [List.getD_eq_default _ _ (by omega)] at hu
    simp at hu
  have hdrop : txns.drop (replayTransactions dep d txns).2.1 =
      txns[(replayTransactions dep d txns).2.1] ::
        txns.drop ((replayTransactions dep d txns).2.1 + 1) :=
    List.drop_eq_getElem_cons hklt
  have hmem : u ∈ txns[(replayTransactions dep d txns).2.1] := by
    rw [List.getD_eq_getElem _ _ hklt] at hu
    exact hu
  rw [hdrop, replayTransactions]
  cases ha : applyUpdates prodDep d2
      txns[(replayTransactions dep d txns).2.1] with
  | mk d1 e1 =>
    have he1 : e1 = some ApplyErr.malformedUpdate := by
      have h2 := applyUpdates_healthy_malformed d2
        txns[(replayTransactions dep d txns).2.1] ⟨u, hmem, hnw⟩
      rw [ha] at h2
      exact h2
    subst he1
    simp only []

/-- Claim C3: recovery replays the incomplete WAL transactions in log order;
some leading number `k` of them is marked complete, each only after its
apply succeeded, and the file holds those `k` transactions plus at most a
fragment of transaction `k`; the run succeeds iff everything completed; a
`DiskFault` is propagated with the faulting transaction left incomplete, and
a retried healthy replay of the still-incomplete transactions lands on
exactly the state a fault-free replay of all of them would have produced
(records logged through the codec are well formed, which that convergence
uses); a non-fault (malformed-update) error makes loading fail fatally: the
faulting transaction is left incomplete and retrying — even on a fully
healthy disk, from any disk state — fails with the same error, so with
well-formed logged records no malformed-update error ever arises. -/
theorem claim3_recovery_replay (dep : Nat → Bool) (d : Disk)
    (txns : List (List (List Nat))) :
    ∃ k ≤ txns.length, ∃ j,
      (replayTransactions dep d txns).2.1 = k ∧
      (replayTransactions dep d txns).1.file =
        applyList (decRecs (txns.take k).flatten ++
          decRecs ((txns.getD k []).take j)) d.file ∧
      ((replayTransactions dep d txns).2.2 = none ↔ k = txns.length) ∧
      ((replayTransactions dep d txns).2.2 = some ApplyErr.diskFault →
        k < txns.length) ∧
      ((replayTransactions dep d txns).2.2 = some ApplyErr.malformedUpdate →
        k < txns.length ∧
        ∀ d2 : Disk,
          (replayTransactions prodDep d2 (txns.drop k)).2.2 =
            some ApplyErr.malformedUpdate) ∧
      ((∀ u ∈ txns.flatten, WfUpdate u) →
        (replayTransactions dep d txns).2.2 ≠ some ApplyErr.malformedUpdate) ∧
      ((∀ u ∈ txns.flatten, WfUpdate u) →
        (replayTransactions dep d txns).2.2 = some ApplyErr.diskFault →
        (replayTransactions prodDep (replayTransactions dep d txns).1
            (txns.drop k)).1.file =
          (replayTransactions prodDep d txns).1.file) := by
  obtain ⟨k, hk, j, hcount, hfile, hiff⟩ := replayTransactions_run dep d txns
  refine ⟨k, hk, j, hcount, hfile, hiff, ?_, ?_,
    fun hwf => replayTransactions_no_malformed dep d txns hwf, ?_⟩
  · intro he
    rcases Nat.lt_or_ge k txns.length with hlt | hge
    · exact hlt
    · have hnone : (replayTransactions dep d txns).2.2 = none :=
        hiff.2 (by omega)
      rw [hnone] at he
      cases he
  · intro he
    refine ⟨?_, ?_⟩
    · rcases Nat.lt_or_ge k txns.length with hlt | hge
      · exact hlt
      · have hnone : (replayTransactions dep d txns).2.2 = none :=
          hiff.2 (by omega)
        rw [hnone] at he
        cases he
    · intro d2
      have := replayTransactions_malformed_retry dep d txns he d2
      rwa [hcount] at this
  · intro hwf he
    have hfault : (replayTransactions dep d txns).2.2 ≠ none := by
      rw [he]
      simp
    have := replayTransactions_retry dep d txns hwf hfault
    rwa [hcount] at this

/-- Witness for C3: a single one-record transaction replayed against a
dependency that faults on the first write call. -/
theorem claim3_witness :
    ∃ k ≤ ([[updSample]] : List (List (List Nat))).length, ∃ j,
      (replayTransactions faultFirstWrite ⟨[], 0⟩ [[updSample]]).2.1 = k ∧
      (replayTransactions faultFirstWrite ⟨[], 0⟩ [[updSample]]).1.file =
        applyList (decRecs (([[updSample]] :
          List (List (List Nat))).take k).flatten ++
          decRecs ((([[updSample]] :
            List (List (List Nat))).getD k []).take j)) (⟨[], 0⟩ : Disk).file ∧
      ((replayTransactions faultFirstWrite ⟨[], 0⟩ [[updSample]]).2.2 = none ↔
        k = ([[updSample]] : List (List (List Nat))).length) ∧
      ((replayTransactions faultFirstWrite ⟨[], 0⟩ [[updSample]]).2.2 =
          some ApplyErr.diskFault →
        k < ([[updSample]] : List (List (List Nat))).length) ∧
      ((replayTransactions faultFirstWrite ⟨[], 0⟩ [[updSample]]).2.2 =
          some ApplyErr.malformedUpdate →
        k < ([[updSample]] : List (List (List Nat))).length ∧
        ∀ d2 : Disk,
          (replayTransactions prodDep d2
              (([[updSample]] : List (List (List Nat))).drop k)).2.2 =
            some ApplyErr.malformedUpdate) ∧
      ((∀ u ∈ ([[updSample]] : List (List (List Nat))).flatten, WfUpdate u) →
        (replayTransactions faultFirstWrite ⟨[], 0⟩ [[updSample]]).2.2 ≠
          some ApplyErr.malformedUpdate) ∧
      ((∀ u ∈ ([[updSample]] : List (List (List Nat))).flatten, WfUpdate u) →
        (replayTransactions faultFirstWrite ⟨[], 0⟩ [[updSample]]).2.2 =
          some ApplyErr.diskFault →
        (replayTransactions prodDep
            (replayTransactions faultFirstWrite ⟨[], 0⟩ [[updSample]]).1
            (([[updSample]] : List (List (List Nat))).drop k)).1.file =
          (replayTransactions prodDep ⟨[], 0⟩ [[updSample]]).1.file) :=
  claim3_recovery_replay faultFirstWrite ⟨[], 0⟩ [[updSample]]

end Siad
